import Mathlib

/-!
Verification of the `clean-html` tool (`src/main.go`).

The program strips HTML documents down to a whitelist of elements, converts
them to markdown via an external converter, post-processes the converted text
and prepends a front-matter block.  Strings are modelled as `List Char`
(Go indexes bytes; every character the program inspects — braces, newline,
`:`, `(`, `/`, `-` — is ASCII, so byte- and character-level scanning agree).

Functions whose Go originals loop with an index are modelled with a fuel
argument (`fuel = length + 1` always suffices because every iteration
advances the index); the fuel makes the definitions structurally recursive,
hence kernel-reducible, and fuel-irrelevance lemmas recover the intended
recurrences.
-/

set_option maxHeartbeats 1000000

namespace CleanHtml

/-- Model of Go `unicode.IsSpace`: the Unicode White_Space property —
U+0009 through U+000D (tab, LF, vertical tab, form feed, CR), space, NEL
(U+0085), NBSP (U+00A0) and the higher White_Space code points (U+1680,
U+2000-U+200A, U+2028, U+2029, U+202F, U+205F, U+3000). -/
def isSpaceGo (c : Char) : Bool :=
  (0x09 ≤ c.val && c.val ≤ 0x0d) || c.val = 0x20 || c.val = 0x85 || c.val = 0xa0 ||
  c.val = 0x1680 || (0x2000 ≤ c.val && c.val ≤ 0x200a) ||
  c.val = 0x2028 || c.val = 0x2029 || c.val = 0x202f || c.val = 0x205f || c.val = 0x3000

/-- Model of Go `strings.TrimSpace`: drop `unicode.IsSpace` characters from
both ends. -/
def trimSpace (s : List Char) : List Char :=
  ((s.dropWhile isSpaceGo).reverse.dropWhile isSpaceGo).reverse

/-- Model of Go `strings.Contains`: `pat` occurs as a contiguous substring. -/
def containsSub (pat : List Char) : List Char → Bool
  | [] => pat.isEmpty
  | c :: t => pat.isPrefixOf (c :: t) || containsSub pat t

/-- Fuel-driven worker for `replaceAll`. -/
def replaceAllGo (pat rep : List Char) : Nat → List Char → List Char
  | 0, s => s
  | _ + 1, [] => []
  | fuel + 1, c :: t =>
    if pat.isPrefixOf (c :: t) && !pat.isEmpty then
      rep ++ replaceAllGo pat rep fuel ((c :: t).drop pat.length)
    else
      c :: replaceAllGo pat rep fuel t

/-- Model of Go `strings.ReplaceAll s pat rep` for non-empty `pat`:
replace the leftmost, non-overlapping occurrences of `pat` by `rep`. -/
def replaceAll (pat rep s : List Char) : List Char :=
  replaceAllGo pat rep s.length s

/-- Model of Go `strings.Split s sep` for a one-character separator. -/
def splitOnChar (sep : Char) : List Char → List (List Char)
  | [] => [[]]
  | c :: t =>
    if c = sep then [] :: splitOnChar sep t
    else
      match splitOnChar sep t with
      | [] => [[c]]
      | w :: ws => (c :: w) :: ws

/-- Model of Go `strings.Join ws sep`. -/
def joinWith (sep : List Char) : List (List Char) → List Char
  | [] => []
  | [w] => w
  | w :: ws => w ++ sep ++ joinWith sep ws

end CleanHtml

namespace CleanHtml

/-- The opening brace character (written by code so the literal brace does not
occur inside a string). -/
def obr : Char := '\x7b'

/-- The closing brace character. -/
def cbr : Char := '\x7d'

/-- Fuel-driven worker for `findClose`. -/
def findCloseGo (s : List Char) : Nat → Nat → Nat
  | 0, j => j
  | fuel + 1, j =>
    if h : j < s.length then
      if s.get ⟨j, h⟩ = cbr then j else findCloseGo s fuel (j + 1)
    else j

/-- The inner `j` loop of the brace pass in `processHTMLFile`
(src/main.go lines 240-243): the first index `≥ j` holding a closing brace,
or `s.length` if none exists. -/
def findClose (s : List Char) (j : Nat) : Nat :=
  findCloseGo s (s.length + 1) j

/-- Fuel-driven worker for the outer brace-stripping loop.  Mirrors
src/main.go lines 237-251: on an opening brace, look for the first closing
brace; when found, resume just past it; when not found, the opening brace
falls through to the `WriteByte` at the bottom of the loop. -/
def braceLoopGo (s : List Char) : Nat → Nat → List Char
  | 0, _ => []
  | fuel + 1, i =>
    if h : i < s.length then
      if s.get ⟨i, h⟩ = obr then
        if findClose s i < s.length then
          braceLoopGo s fuel (findClose s i + 1)
        else
          s.get ⟨i, h⟩ :: braceLoopGo s fuel (i + 1)
      else
        s.get ⟨i, h⟩ :: braceLoopGo s fuel (i + 1)
    else []

/-- The brace-span stripping pass of `processHTMLFile` (src/main.go 236-251),
started at index 0 with an empty output. -/
def braceStrip (s : List Char) : List Char :=
  braceLoopGo s (s.length + 1) 0

/-- Same loop, but threading the accumulated output explicitly: the Go code
appends the surviving bytes onto the `result` builder that already holds the
front-matter block, so the accumulator models `result`. -/
def braceLoopAccGo (s : List Char) : Nat → List Char → Nat → List Char
  | 0, acc, _ => acc
  | fuel + 1, acc, i =>
    if h : i < s.length then
      if s.get ⟨i, h⟩ = obr then
        if findClose s i < s.length then
          braceLoopAccGo s fuel acc (findClose s i + 1)
        else
          braceLoopAccGo s fuel (acc ++ [s.get ⟨i, h⟩]) (i + 1)
      else
        braceLoopAccGo s fuel (acc ++ [s.get ⟨i, h⟩]) (i + 1)
    else acc

/-- Structural restatement of the brace pass used for proofs: scan the list;
at an opening brace, drop up to and past the first closing brace when one
exists, otherwise copy the opening brace; copy every other character.
`braceLoop_eq_braceScan` proves it equal to the indexed loop. -/
def braceScanGo : Nat → List Char → List Char
  | 0, s => s
  | _ + 1, [] => []
  | fuel + 1, c :: t =>
    if c = obr then
      match t.dropWhile (fun x => x ≠ cbr) with
      | [] => c :: braceScanGo fuel t
      | _ :: r => braceScanGo fuel r
    else c :: braceScanGo fuel t

/-- Entry point of the structural brace scanner. -/
def braceScan (s : List Char) : List Char :=
  braceScanGo s.length s

end CleanHtml

namespace CleanHtml

/-- One HTML attribute: key/value pair (namespace unused by the program). -/
structure Attr where
  key : String
  val : String
deriving DecidableEq

/-- A parsed HTML node (`*html.Node`).  `element` carries the tag name
(Go stores it in `Data`), the attribute list and the children; `text` carries
character data; `other` covers the remaining node types (document, comment,
doctype), which the program never keeps but always recurses into.  Children
are carried by every constructor, as in the Go struct. -/
inductive Node where
  | element (tag : String) (attrs : List Attr) (children : List Node)
  | text (data : List Char) (children : List Node)
  | other (children : List Node)

/-- The child list of a node. -/
def Node.children : Node → List Node
  | .element _ _ cs => cs
  | .text _ cs => cs
  | .other cs => cs

/-- The node's own text data: `n.Data` when `n` is a text node, else empty
(src/main.go lines 31-33). -/
def Node.ownText : Node → List Char
  | .text d _ => d
  | _ => []

/-- Model of `hasNoAttributes` (src/main.go 17-26): no attribute of the node
has a key listed in `excludeAttrs`. -/
def hasNoAttributes (attrs : List Attr) (excludeAttrs : List String) : Bool :=
  attrs.all fun attr => excludeAttrs.all fun e => attr.key ≠ e

mutual

/-- Model of `getTextContent` (src/main.go 29-38): the node's own data
followed by the children's text, trimmed — note that the trim happens at
every level of the recursion, not only at the top. -/
def getTextContent : Node → List Char
  | .element _ _ cs => trimSpace ([] ++ gtcChildren cs)
  | .text d cs => trimSpace (d ++ gtcChildren cs)
  | .other cs => trimSpace ([] ++ gtcChildren cs)
termination_by n => sizeOf n

/-- Concatenation of `getTextContent` over a child list (the `for c := ...`
loop in `getTextContent`). -/
def gtcChildren : List Node → List Char
  | [] => []
  | c :: cs => getTextContent c ++ gtcChildren cs
termination_by cs => sizeOf cs

end

/-- Model of `isTargetElement` (src/main.go 41-76): keep/drop verdict for a
node.  The Go `switch` on `n.Data` becomes an `if` chain over the tag. -/
def isTargetElement (n : Node) : Bool :=
  match n with
  | .text _ _ => false
  | .other _ => false
  | .element tag attrs children =>
    if tag = "ul" then hasNoAttributes attrs ["id", "style"]
    else if tag = "p" then
      if !hasNoAttributes attrs ["class", "style"] then false
      else !containsSub "Copyright".toList (getTextContent (.element tag attrs children))
    else if tag = "h3" then
      if !hasNoAttributes attrs ["class", "id"] then false
      else !containsSub "District Map".toList (getTextContent (.element tag attrs children))
    else if tag = "h1" ∨ tag = "h2" then hasNoAttributes attrs ["class", "id"]
    else if tag = "div" then
      attrs.any fun attr => attr.key = "class" && attr.val = "photogimg"
    else false

mutual

/-- Model of `extractContent` (src/main.go 87-102), keeping the accepted
nodes themselves rather than their `renderNode` serializations: an accepted
node contributes itself and is not descended into; a rejected node
contributes its children's extractions in order. -/
def extractNodes : Node → List Node
  | .element t a cs =>
    if isTargetElement (.element t a cs) then [.element t a cs] else extractList cs
  | .text d cs =>
    if isTargetElement (.text d cs) then [.text d cs] else extractList cs
  | .other cs =>
    if isTargetElement (.other cs) then [.other cs] else extractList cs
termination_by n => sizeOf n

/-- The `for c := n.FirstChild ...` recursion of `extractContent`. -/
def extractList : List Node → List Node
  | [] => []
  | c :: cs => extractNodes c ++ extractList cs
termination_by cs => sizeOf cs

end

mutual

/-- Ghost companion of `extractNodes`: the tree positions (child-index
paths from the root) of the nodes the extraction emits. -/
def extractPaths : Node → List (List Nat)
  | .element t a cs =>
    if isTargetElement (.element t a cs) then [[]] else extractPathsList 0 cs
  | .text d cs =>
    if isTargetElement (.text d cs) then [[]] else extractPathsList 0 cs
  | .other cs =>
    if isTargetElement (.other cs) then [[]] else extractPathsList 0 cs
termination_by n => sizeOf n

/-- Positions emitted for the children, the first child carrying index `i`. -/
def extractPathsList : Nat → List Node → List (List Nat)
  | _, [] => []
  | i, c :: cs => (extractPaths c).map (i :: ·) ++ extractPathsList (i + 1) cs
termination_by _ cs => sizeOf cs

end

/-- The node sitting at a child-index path, if any. -/
def nodeAt : Node → List Nat → Option Node
  | n, [] => some n
  | n, i :: p =>
    match n.children.get? i with
    | some c => nodeAt c p
    | none => none

/-- Strict lexicographic order on child-index paths: document (pre-)order
for positions neither of which is an ancestor of the other. -/
def pathLt : List Nat → List Nat → Bool
  | [], [] => false
  | [], _ :: _ => true
  | _ :: _, [] => false
  | a :: p, b :: q => a < b || (a = b && pathLt p q)

/-- Independence in document order: the first position is not an ancestor of
(prefix of) the second, and strictly precedes it lexicographically (which
also rules out the second being an ancestor of the first). -/
def pathIndep (p q : List Nat) : Prop :=
  ¬ p <+: q ∧ pathLt p q = true

mutual

/-- Modelled from the spec: "Flattened text content = concatenation of all
text-node data in the node's subtree in document order" (before the final
trim).  This is the spec-side definition to compare with `getTextContent`. -/
def collectText : Node → List Char
  | .element _ _ cs => [] ++ collectTextList cs
  | .text d cs => d ++ collectTextList cs
  | .other cs => [] ++ collectTextList cs
termination_by n => sizeOf n

/-- Concatenation of `collectText` over a child list. -/
def collectTextList : List Node → List Char
  | [] => []
  | c :: cs => collectText c ++ collectTextList cs
termination_by cs => sizeOf cs

end

/-- Modelled from the spec: flattened text content with leading and trailing
whitespace trimmed once, at the top only. -/
def specFlatten (n : Node) : List Char :=
  trimSpace (collectText n)

mutual

/-- Every text node in the subtree carries data free of whitespace. -/
def textNoWS : Node → Bool
  | .element _ _ cs => textNoWSList cs
  | .text d cs => d.all (fun c => !isSpaceGo c) && textNoWSList cs
  | .other cs => textNoWSList cs
termination_by n => sizeOf n

/-- List version of `textNoWS`. -/
def textNoWSList : List Node → Bool
  | [] => true
  | c :: cs => textNoWS c && textNoWSList cs
termination_by cs => sizeOf cs

end

/-- The loop body of `formatDirName` (src/main.go 108-112): upper-case the
first character of a non-empty segment, leave the rest unchanged. -/
def capFirst : List Char → List Char
  | [] => []
  | c :: rest => c.toUpper :: rest

/-- Model of `formatDirName` (src/main.go 104-114): split the base name on
hyphens, upper-case the first character of each non-empty segment, join the
segments with single spaces. -/
def formatDirName (name : List Char) : List Char :=
  joinWith " ".toList ((splitOnChar '-' name).map capFirst)

end CleanHtml

namespace CleanHtml

/-- The `(../` pattern of the link rewrite (src/main.go 230). -/
def patOpen : List Char := "(../".toList

/-- The `/index.html)` pattern of the link rewrite (src/main.go 231). -/
def patIndex : List Char := "/index.html)".toList

/-- The per-line step of the directive pass (src/main.go 224-233): drop the
line when, after trimming, it starts with `:::`; otherwise rewrite the two
link patterns, `(../` first. -/
def lineStep (line : List Char) : Option (List Char) :=
  if (":::".toList).isPrefixOf (trimSpace line) then none
  else some (replaceAll patIndex ")".toList (replaceAll patOpen "(".toList line))

/-- The directive-line filtering pass (src/main.go 222-235): split on
newline, filter/rewrite each line, rejoin with newline. -/
def directivePass (s : List Char) : List Char :=
  joinWith "\n".toList ((splitOnChar '\n' s).filterMap lineStep)

/-- The `**::**` marker removed by the first pass (src/main.go 220). -/
def marker : List Char := "**::**".toList

/-- The three text post-processing passes in order: marker removal,
directive-line filtering, brace-span stripping (src/main.go 218-251). -/
def postProcessText (md : List Char) : List Char :=
  braceStrip (directivePass (replaceAll marker [] md))

/-- The front-matter block built by the `result.WriteString` calls
(src/main.go 206-216).  `date` abstracts `time.Now().Format("2006-01-02")`. -/
def metaBlock (base category tag date : List Char) : List Char :=
  let title := formatDirName base
  "---\n".toList ++
  "title: \"".toList ++ title ++ "\"\n".toList ++
  "description: \"".toList ++ title ++ "\"\n".toList ++
  "meta_title: \"".toList ++ title ++ "\"\n".toList ++
  "author: \"\"\n".toList ++
  "date: ".toList ++ date ++ "\n".toList ++
  "categories: [\"".toList ++ category ++ "\"]\n".toList ++
  "image: \"\"\n".toList ++
  "tags: [\"".toList ++ tag ++ "\"]\n".toList ++
  "draft: false\n".toList ++
  "---\n\n".toList

/-- The output-document construction of `processHTMLFile` (src/main.go
201-251): build the front-matter into `result`, transform the converted text
`md` by the three passes, the last of which appends its survivors onto
`result` byte by byte. -/
def processOutput (base category tag date md : List Char) : List Char :=
  let result := metaBlock base category tag date
  let md1 := replaceAll marker [] md
  let md2 := directivePass md1
  braceLoopAccGo md2 (md2.length + 1) result 0

/-- Fuel-driven combined scanner for the two link rewrites: at each position
rewrite `(../` when it matches, otherwise `/index.html)` when it matches,
otherwise copy one character.  Both composition orders of the two
`replaceAll`s coincide with it on overlap-free inputs. -/
def combGo : Nat → List Char → List Char
  | 0, s => s
  | _ + 1, [] => []
  | fuel + 1, c :: t =>
    if patOpen.isPrefixOf (c :: t) then
      '(' :: combGo fuel ((c :: t).drop patOpen.length)
    else if patIndex.isPrefixOf (c :: t) then
      ')' :: combGo fuel ((c :: t).drop patIndex.length)
    else c :: combGo fuel t

/-- Entry point of the combined link-rewrite scanner. -/
def comb (s : List Char) : List Char :=
  combGo s.length s

/-- The one way the two link-rewrite patterns can overlap: an occurrence of
`(../` whose final slash starts an occurrence of `/index.html)`. -/
def overlapWord : List Char := "(../index.html)".toList

/-- The first link rewrite, `(../` → `(` (src/main.go 230). -/
def replOpen (s : List Char) : List Char :=
  replaceAll patOpen "(".toList s

/-- The second link rewrite, `/index.html)` → `)` (src/main.go 231). -/
def replIndex (s : List Char) : List Char :=
  replaceAll patIndex ")".toList s

/-- Modelled from the spec (claim C6): the keep-conditions table of the
Element Classifier, spelled out as a predicate to compare with
`isTargetElement`. -/
def KeepSpec (n : Node) : Prop :=
  (∃ attrs cs, n = Node.element "ul" attrs cs ∧
    ∀ a ∈ attrs, a.key ≠ "id" ∧ a.key ≠ "style") ∨
  (∃ attrs cs, n = Node.element "p" attrs cs ∧
    (∀ a ∈ attrs, a.key ≠ "class" ∧ a.key ≠ "style") ∧
    containsSub "Copyright".toList (getTextContent n) = false) ∨
  (∃ attrs cs, n = Node.element "h3" attrs cs ∧
    (∀ a ∈ attrs, a.key ≠ "class" ∧ a.key ≠ "id") ∧
    containsSub "District Map".toList (getTextContent n) = false) ∨
  (∃ tag attrs cs, n = Node.element tag attrs cs ∧ (tag = "h1" ∨ tag = "h2") ∧
    ∀ a ∈ attrs, a.key ≠ "class" ∧ a.key ≠ "id") ∨
  (∃ attrs cs, n = Node.element "div" attrs cs ∧
    ∃ a ∈ attrs, a.key = "class" ∧ a.val = "photogimg")

end CleanHtml

namespace CleanHtml

example : replaceAll "ab".toList "x".toList "zababy".toList = "zxxy".toList := by decide

example : splitOnChar '-' "a-b--c".toList = ["a".toList, "b".toList, [], "c".toList] := by decide

example : braceStrip "a".toList = "a".toList := by decide

example : braceStrip ['a', obr, 'b', cbr, 'c'] = ['a', 'c'] := by decide

example : braceStrip ['a', obr, 'b', 'c'] = ['a', obr, 'b', 'c'] := by decide

example : braceStrip ['a', obr, 'b', obr, 'c', cbr, 'd', cbr, 'e'] = ['a', 'd', cbr, 'e'] := by decide

theorem replaceAllGo_irrel (pat rep : List Char) :
    ∀ f g s, s.length ≤ f → s.length ≤ g →
      replaceAllGo pat rep f s = replaceAllGo pat rep g s := by
  intro f
  induction f with
  | zero =>
    intro g s hf _
    have hs : s = [] := List.length_eq_zero.mp (Nat.le_zero.mp hf)
    subst hs
    cases g <;> rfl
  | succ f ih =>
    intro g s hf hg
    cases g with
    | zero =>
      have hs : s = [] := List.length_eq_zero.mp (Nat.le_zero.mp hg)
      subst hs; rfl
    | succ g =>
      cases s with
      | nil => rfl
      | cons c t =>
        simp only [replaceAllGo]
        by_cases hp : (pat.isPrefixOf (c :: t) && !pat.isEmpty) = true
        · rw [if_pos hp, if_pos hp]
          have hpe : pat ≠ [] := by
            have h2 := (Bool.and_eq_true _ _).mp hp
            simpa using h2.2
          have hlen : 1 ≤ pat.length := by
            cases pat with
            | nil => exact absurd rfl hpe
            | cons _ _ => simp
          have hdl : ((c :: t).drop pat.length).length ≤ f := by
            simp only [List.length_drop, List.length_cons]
            have : t.length ≤ f := by simpa using hf
            omega
          have hdg : ((c :: t).drop pat.length).length ≤ g := by
            simp only [List.length_drop, List.length_cons]
            have : t.length ≤ g := by simpa using hg
            omega
          rw [ih g _ hdl hdg]
        · rw [if_neg hp, if_neg hp]
          have hl : t.length ≤ f := by simpa using hf
          have hg2 : t.length ≤ g := by simpa using hg
          rw [ih g t hl hg2]

theorem replaceAll_cons_match {pat : List Char} (rep : List Char) {c : Char} {t : List Char}
    (hne : pat ≠ []) (hp : pat <+: (c :: t)) :
    replaceAll pat rep (c :: t) = rep ++ replaceAll pat rep ((c :: t).drop pat.length) := by
  have hcond : (pat.isPrefixOf (c :: t) && !pat.isEmpty) = true := by
    simp [List.isPrefixOf_iff_prefix, hp, hne]
  have hlen : 1 ≤ pat.length := by
    cases pat with
    | nil => exact absurd rfl hne
    | cons _ _ => simp
  show replaceAllGo pat rep (c :: t).length (c :: t) = _
  simp only [List.length_cons]
  rw [replaceAllGo]
  rw [if_pos hcond]
  congr 1
  apply replaceAllGo_irrel
  · simp only [List.length_drop, List.length_cons]; omega
  · exact le_rfl

theorem replaceAll_cons_nomatch {pat : List Char} (rep : List Char) {c : Char} {t : List Char}
    (hp : ¬ pat <+: (c :: t)) :
    replaceAll pat rep (c :: t) = c :: replaceAll pat rep t := by
  have hcond : (pat.isPrefixOf (c :: t) && !pat.isEmpty) = true → False := by
    intro h
    have := ((Bool.and_eq_true _ _).mp h).1
    exact hp (List.isPrefixOf_iff_prefix.mp this)
  show replaceAllGo pat rep (c :: t).length (c :: t) = _
  simp only [List.length_cons]
  rw [replaceAllGo]
  rw [if_neg hcond]
  rfl

theorem replaceAll_pat_head {pat : List Char} (rep : List Char) (u : List Char)
    (hne : pat ≠ []) :
    replaceAll pat rep (pat ++ u) = rep ++ replaceAll pat rep u := by
  cases pat with
  | nil => exact absurd rfl hne
  | cons p pt =>
    rw [List.cons_append]
    rw [replaceAll_cons_match rep hne (by rw [← List.cons_append]; exact List.prefix_append _ _)]
    congr 1
    congr 1
    rw [← List.cons_append]
    simpa using List.drop_left (p :: pt) u

theorem replaceAll_skip {p ph : Char} {pt : List Char} (rep : List Char) (pre u : List Char)
    (hph : p = ph) (hmem : ph ∉ pre) :
    replaceAll (p :: pt) rep (pre ++ u) = pre ++ replaceAll (p :: pt) rep u := by
  induction pre with
  | nil => rfl
  | cons c cs ih =>
    have hc : c ≠ ph := fun h => hmem (h ▸ List.mem_cons_self c cs)
    rw [List.cons_append]
    rw [replaceAll_cons_nomatch rep (fun hpre => by
      rcases List.cons_prefix_cons.mp hpre with ⟨h1, -⟩
      exact hc (by rw [← h1, hph]))]
    rw [ih (fun h => hmem (List.mem_cons_of_mem c h))]
    rfl

theorem replaceAll_nil (pat rep : List Char) : replaceAll pat rep [] = [] := rfl

theorem replaceAll_nil_pat (rep : List Char) : ∀ s, replaceAll [] rep s = s := by
  have go : ∀ f s, replaceAllGo [] rep f s = s := by
    intro f
    induction f with
    | zero => intro s; rfl
    | succ f ih =>
      intro s
      cases s with
      | nil => rfl
      | cons c t => rw [replaceAllGo]; simp [ih]
  intro s
  exact go s.length s

theorem prefix_replaceAll_transfer {pat : List Char} {r : Char} :
    ∀ k t q : List Char, t.length ≤ k.length → r ∉ q →
      q <+: replaceAll pat [r] t → q <+: t := by
  intro k
  induction k with
  | nil =>
    intro t q hk _ hq
    have : t = [] := List.length_eq_zero.mp (Nat.le_zero.mp (by simpa using hk))
    subst this
    rw [replaceAll_nil] at hq
    exact hq
  | cons _ ks ih =>
    intro t q hk hr hq
    cases t with
    | nil =>
      rw [replaceAll_nil] at hq
      exact hq
    | cons c t =>
      by_cases hne : pat = (List.nil : List Char)
      · subst hne
        rw [replaceAll_nil_pat] at hq
        exact hq
      · by_cases hp : pat <+: (c :: t)
        · rw [replaceAll_cons_match [r] hne hp] at hq
          cases q with
          | nil => exact List.nil_prefix
          | cons qh qt =>
            rcases List.cons_prefix_cons.mp hq with ⟨h1, -⟩
            exact absurd (h1 ▸ List.mem_cons_self qh qt) hr
        · rw [replaceAll_cons_nomatch [r] hp] at hq
          cases q with
          | nil => exact List.nil_prefix
          | cons qh qt =>
            rcases List.cons_prefix_cons.mp hq with ⟨h1, h2⟩
            have hqt : qt <+: t := by
              refine ih t qt (by simpa using Nat.le_of_succ_le_succ (by simpa using hk)) ?_ h2
              exact fun h => hr (List.mem_cons_of_mem qh h)
            exact List.cons_prefix_cons.mpr ⟨h1, hqt⟩

theorem patOpen_ne_nil : patOpen ≠ [] := by decide

theorem patIndex_ne_nil : patIndex ≠ [] := by decide

theorem patOpen_cons : patOpen = '(' :: "../".toList := by decide

theorem patIndex_cons : patIndex = '/' :: "index.html)".toList := by decide

theorem not_prefix_head {p c : Char} {pt u : List Char} (h : p ≠ c) :
    ¬ (p :: pt) <+: (c :: u) := fun hp => h (List.cons_prefix_cons.mp hp).1

theorem combGo_irrel :
    ∀ f g s, s.length ≤ f → s.length ≤ g → combGo f s = combGo g s := by
  intro f
  induction f with
  | zero =>
    intro g s hf _
    have hs : s = [] := List.length_eq_zero.mp (Nat.le_zero.mp hf)
    subst hs
    cases g <;> rfl
  | succ f ih =>
    intro g s hf hg
    cases g with
    | zero =>
      have hs : s = [] := List.length_eq_zero.mp (Nat.le_zero.mp hg)
      subst hs; rfl
    | succ g =>
      cases s with
      | nil => rfl
      | cons c t =>
        have htf : t.length ≤ f := by simpa using hf
        have htg : t.length ≤ g := by simpa using hg
        have hOl : patOpen.length = 4 := by decide
        have hIl : patIndex.length = 12 := by decide
        rw [combGo, combGo]
        by_cases h1 : patOpen.isPrefixOf (c :: t) = true
        · rw [if_pos h1, if_pos h1]
          have hd : ((c :: t).drop patOpen.length).length ≤ f := by
            simp only [List.length_drop, List.length_cons]
            omega
          have hdg : ((c :: t).drop patOpen.length).length ≤ g := by
            simp only [List.length_drop, List.length_cons]
            omega
          rw [ih g _ hd hdg]
        · rw [if_neg h1, if_neg h1]
          by_cases h2 : patIndex.isPrefixOf (c :: t) = true
          · rw [if_pos h2, if_pos h2]
            have hd : ((c :: t).drop patIndex.length).length ≤ f := by
              simp only [List.length_drop, List.length_cons]
              omega
            have hdg : ((c :: t).drop patIndex.length).length ≤ g := by
              simp only [List.length_drop, List.length_cons]
              omega
            rw [ih g _ hd hdg]
          · rw [if_neg h2, if_neg h2, ih g t htf htg]

theorem comb_nil : comb [] = [] := rfl

theorem comb_cons_open {c : Char} {t : List Char} (h : patOpen <+: (c :: t)) :
    comb (c :: t) = '(' :: comb ((c :: t).drop patOpen.length) := by
  show combGo (c :: t).length (c :: t) = _
  simp only [List.length_cons]
  rw [combGo, if_pos (List.isPrefixOf_iff_prefix.mpr h)]
  congr 1
  apply combGo_irrel
  · simp only [List.length_drop, List.length_cons]
    have hOl : patOpen.length = 4 := by decide
    omega
  · exact le_rfl

theorem comb_cons_index {c : Char} {t : List Char}
    (h1 : ¬ patOpen <+: (c :: t)) (h2 : patIndex <+: (c :: t)) :
    comb (c :: t) = ')' :: comb ((c :: t).drop patIndex.length) := by
  show combGo (c :: t).length (c :: t) = _
  simp only [List.length_cons]
  rw [combGo, if_neg (fun hb => h1 (List.isPrefixOf_iff_prefix.mp hb)),
    if_pos (List.isPrefixOf_iff_prefix.mpr h2)]
  congr 1
  apply combGo_irrel
  · simp only [List.length_drop, List.length_cons]
    have hIl : patIndex.length = 12 := by decide
    omega
  · exact le_rfl

theorem comb_cons_copy {c : Char} {t : List Char}
    (h1 : ¬ patOpen <+: (c :: t)) (h2 : ¬ patIndex <+: (c :: t)) :
    comb (c :: t) = c :: comb t := by
  show combGo (c :: t).length (c :: t) = _
  simp only [List.length_cons]
  rw [combGo, if_neg (fun hb => h1 (List.isPrefixOf_iff_prefix.mp hb)),
    if_neg (fun hb => h2 (List.isPrefixOf_iff_prefix.mp hb))]
  rfl

theorem replIndex_replOpen_aux :
    ∀ k : Nat, ∀ s : List Char, s.length ≤ k → replIndex (replOpen s) = comb s := by
  intro k
  induction k with
  | zero =>
    intro s hs
    have : s = [] := List.length_eq_zero.mp (Nat.le_zero.mp hs)
    subst this
    rfl
  | succ k ih =>
    intro s hs
    cases s with
    | nil => rfl
    | cons c t =>
      simp only [List.length_cons] at hs
      by_cases hA : patOpen <+: (c :: t)
      · obtain ⟨r, hr⟩ := hA
        have hrlen : r.length ≤ k := by
          have := congrArg List.length hr
          simp only [List.length_append, List.length_cons] at this
          have h4 : patOpen.length = 4 := by decide
          omega
        have h1 : replOpen (c :: t) = '(' :: replOpen r := by
          rw [← hr]
          exact replaceAll_pat_head _ r patOpen_ne_nil
        have h2 : replIndex ('(' :: replOpen r) = '(' :: replIndex (replOpen r) := by
          apply replaceAll_cons_nomatch
          rw [patIndex_cons]
          exact not_prefix_head (by decide)
        have h3 : (c :: t).drop patOpen.length = r := by
          rw [← hr]
          exact List.drop_left patOpen r
        rw [h1, h2, ih r hrlen, comb_cons_open ⟨r, hr⟩, h3]
      · by_cases hB : patIndex <+: (c :: t)
        · obtain ⟨r, hr⟩ := hB
          have hrlen : r.length ≤ k := by
            have := congrArg List.length hr
            simp only [List.length_append, List.length_cons] at this
            have h12 : patIndex.length = 12 := by decide
            omega
          have h1 : replOpen (c :: t) = patIndex ++ replOpen r := by
            rw [← hr]
            show replaceAll patOpen _ _ = _
            rw [patOpen_cons]
            exact replaceAll_skip _ patIndex r rfl (by decide)
          have h2 : replIndex (patIndex ++ replOpen r) = ')' :: replIndex (replOpen r) := by
            exact replaceAll_pat_head _ _ patIndex_ne_nil
          have h3 : (c :: t).drop patIndex.length = r := by
            rw [← hr]
            exact List.drop_left patIndex r
          rw [h1, h2, ih r hrlen, comb_cons_index hA ⟨r, hr⟩, h3]
        · have h1 : replOpen (c :: t) = c :: replOpen t :=
            replaceAll_cons_nomatch _ hA
          have h2 : ¬ patIndex <+: (c :: replOpen t) := by
            intro hpre
            rw [patIndex_cons] at hpre
            rcases List.cons_prefix_cons.mp hpre with ⟨hc, hrest⟩
            have htail : ("index.html)".toList) <+: t :=
              prefix_replaceAll_transfer t t ("index.html)".toList) le_rfl (by decide) hrest
            exact hB (by
              rw [patIndex_cons]
              exact List.cons_prefix_cons.mpr ⟨hc, htail⟩)
          have h3 : replIndex (c :: replOpen t) = c :: replIndex (replOpen t) :=
            replaceAll_cons_nomatch _ h2
          have htlen : t.length ≤ k := by omega
          rw [h1, h3, ih t htlen, comb_cons_copy hA hB]

theorem overlapWord_decomp : overlapWord = "(..".toList ++ patIndex := by decide

theorem patOpen_explicit (r : List Char) :
    patOpen ++ r = '(' :: '.' :: '.' :: '/' :: r := rfl

theorem replOpen_replIndex_aux :
    ∀ k : Nat, ∀ s : List Char, s.length ≤ k → ¬ overlapWord <:+: s →
      replOpen (replIndex s) = comb s := by
  intro k
  induction k with
  | zero =>
    intro s hs _
    have : s = [] := List.length_eq_zero.mp (Nat.le_zero.mp hs)
    subst this
    rfl
  | succ k ih =>
    intro s hs hov
    cases s with
    | nil => rfl
    | cons c t =>
      simp only [List.length_cons] at hs
      by_cases hA : patOpen <+: (c :: t)
      · obtain ⟨r, hr⟩ := hA
        have hrlen : r.length ≤ k := by
          have := congrArg List.length hr
          simp only [List.length_append, List.length_cons] at this
          have h4 : patOpen.length = 4 := by decide
          omega
        have hovr : ¬ overlapWord <:+: r := by
          intro h
          exact hov (h.trans (List.IsSuffix.isInfix ⟨patOpen, hr⟩))
        have hnoidx : ¬ patIndex <+: ('/' :: r) := by
          intro hpre
          obtain ⟨r2, hr2⟩ := hpre
          apply hov
          apply List.IsPrefix.isInfix
          refine ⟨r2, ?_⟩
          rw [overlapWord_decomp, List.append_assoc, hr2, ← hr]
          rfl
        have h1 : replIndex (c :: t) = patOpen ++ replIndex r := by
          simp only [replIndex]
          rw [← hr, patOpen_explicit]
          rw [replaceAll_cons_nomatch _ (by rw [patIndex_cons]; exact not_prefix_head (by decide))]
          rw [replaceAll_cons_nomatch _ (by rw [patIndex_cons]; exact not_prefix_head (by decide))]
          rw [replaceAll_cons_nomatch _ (by rw [patIndex_cons]; exact not_prefix_head (by decide))]
          rw [replaceAll_cons_nomatch _ hnoidx]
          rfl
        have h2 : replOpen (patOpen ++ replIndex r) = '(' :: replOpen (replIndex r) :=
          replaceAll_pat_head _ _ patOpen_ne_nil
        have h3 : (c :: t).drop patOpen.length = r := by
          rw [← hr]
          exact List.drop_left patOpen r
        rw [h1, h2, ih r hrlen hovr, comb_cons_open ⟨r, hr⟩, h3]
      · by_cases hB : patIndex <+: (c :: t)
        · obtain ⟨r, hr⟩ := hB
          have hrlen : r.length ≤ k := by
            have := congrArg List.length hr
            simp only [List.length_append, List.length_cons] at this
            have h12 : patIndex.length = 12 := by decide
            omega
          have hovr : ¬ overlapWord <:+: r := by
            intro h
            exact hov (h.trans (List.IsSuffix.isInfix ⟨patIndex, hr⟩))
          have h1 : replIndex (c :: t) = ')' :: replIndex r := by
            rw [← hr]
            exact replaceAll_pat_head _ r patIndex_ne_nil
          have h2 : replOpen (')' :: replIndex r) = ')' :: replOpen (replIndex r) := by
            apply replaceAll_cons_nomatch
            rw [patOpen_cons]
            exact not_prefix_head (by decide)
          have h3 : (c :: t).drop patIndex.length = r := by
            rw [← hr]
            exact List.drop_left patIndex r
          rw [h1, h2, ih r hrlen hovr, comb_cons_index hA ⟨r, hr⟩, h3]
        · have hovt : ¬ overlapWord <:+: t := by
            intro h
            exact hov (h.trans (List.IsSuffix.isInfix ⟨[c], rfl⟩))
          have h1 : replIndex (c :: t) = c :: replIndex t :=
            replaceAll_cons_nomatch _ hB
          have h2 : ¬ patOpen <+: (c :: replIndex t) := by
            intro hpre
            rw [patOpen_cons] at hpre
            rcases List.cons_prefix_cons.mp hpre with ⟨hc, hrest⟩
            have htail : ("../".toList) <+: t :=
              prefix_replaceAll_transfer t t ("../".toList) le_rfl (by decide) hrest
            exact hA (by
              rw [patOpen_cons]
              exact List.cons_prefix_cons.mpr ⟨hc, htail⟩)
          have h3 : replOpen (c :: replIndex t) = c :: replOpen (replIndex t) :=
            replaceAll_cons_nomatch _ h2
          have htlen : t.length ≤ k := by omega
          rw [h1, h3, ih t htlen hovt, comb_cons_copy hA hB]

theorem braceScanGo_irrel :
    ∀ f g t, t.length ≤ f → t.length ≤ g → braceScanGo f t = braceScanGo g t := by
  intro f
  induction f with
  | zero =>
    intro g t hf _
    have : t = [] := List.length_eq_zero.mp (Nat.le_zero.mp hf)
    subst this
    cases g <;> rfl
  | succ f ih =>
    intro g t hf hg
    cases g with
    | zero =>
      have : t = [] := List.length_eq_zero.mp (Nat.le_zero.mp hg)
      subst this; rfl
    | succ g =>
      cases t with
      | nil => rfl
      | cons c t =>
        have htf : t.length ≤ f := by simpa using hf
        have htg : t.length ≤ g := by simpa using hg
        rw [braceScanGo, braceScanGo]
        by_cases hc : c = obr
        · rw [if_pos hc, if_pos hc]
          cases hd : t.dropWhile (fun x => x ≠ cbr) with
          | nil => rw [ih g t htf htg]
          | cons d r =>
            have hrlen : r.length ≤ t.length := by
              have h1 : (t.dropWhile (fun x => x ≠ cbr)).length ≤ t.length :=
                (List.dropWhile_suffix _).length_le
              rw [hd] at h1
              simp only [List.length_cons] at h1
              omega
            exact ih g r (le_trans hrlen htf) (le_trans hrlen htg)
        · rw [if_neg hc, if_neg hc, ih g t htf htg]

theorem braceScan_nil : braceScan [] = [] := rfl

theorem braceScan_cons_copy {c : Char} (t : List Char) (hc : c ≠ obr) :
    braceScan (c :: t) = c :: braceScan t := by
  show braceScanGo (c :: t).length (c :: t) = _
  simp only [List.length_cons]
  rw [braceScanGo, if_neg hc]
  rfl

theorem braceScan_cons_open_none {t : List Char}
    (hd : t.dropWhile (fun x => x ≠ cbr) = []) :
    braceScan (obr :: t) = obr :: braceScan t := by
  show braceScanGo (obr :: t).length (obr :: t) = _
  simp only [List.length_cons]
  rw [braceScanGo, if_pos rfl, hd]
  rfl

theorem braceScan_cons_open_some {t d : List Char} {x : Char}
    (hd : t.dropWhile (fun y => y ≠ cbr) = x :: d) :
    braceScan (obr :: t) = braceScan d := by
  show braceScanGo (obr :: t).length (obr :: t) = _
  simp only [List.length_cons]
  rw [braceScanGo, if_pos rfl, hd]
  apply braceScanGo_irrel
  · have h1 : (t.dropWhile (fun y => y ≠ cbr)).length ≤ t.length :=
      (List.dropWhile_suffix _).length_le
    rw [hd] at h1
    simp only [List.length_cons] at h1
    omega
  · exact le_rfl

theorem braceScan_no_cbr : ∀ k s : List Char, s.length ≤ k.length → cbr ∉ s →
    braceScan s = s := by
  intro k
  induction k with
  | nil =>
    intro s hk _
    have : s = [] := List.length_eq_zero.mp (Nat.le_zero.mp (by simpa using hk))
    subst this; rfl
  | cons _ ks ih =>
    intro s hk hmem
    cases s with
    | nil => rfl
    | cons c t =>
      have htl : t.length ≤ ks.length := by
        simpa using Nat.le_of_succ_le_succ (by simpa using hk)
      have hmt : cbr ∉ t := fun h => hmem (List.mem_cons_of_mem c h)
      by_cases hc : c = obr
      · subst hc
        have hd : t.dropWhile (fun x => x ≠ cbr) = [] := by
          rw [List.dropWhile_eq_nil_iff]
          intro x hx
          simp only [ne_eq, decide_eq_true_eq]
          exact fun hxe => hmt (hxe ▸ hx)
        rw [braceScan_cons_open_none hd, ih t htl hmt]
      · rw [braceScan_cons_copy t hc, ih t htl hmt]

theorem braceScan_copy_front {u : List Char} (z : List Char) (hu : obr ∉ u) :
    braceScan (u ++ z) = u ++ braceScan z := by
  induction u with
  | nil => rfl
  | cons c u2 ih =>
    have hc : c ≠ obr := fun h => hu (h ▸ List.mem_cons_self c u2)
    rw [List.cons_append, braceScan_cons_copy _ hc,
      ih (fun h => hu (List.mem_cons_of_mem c h)), List.cons_append]

theorem braceScan_open_unterminated :
    ∀ k u v : List Char, u.length ≤ k.length → cbr ∉ v →
      braceScan (u ++ obr :: v) = braceScan u ++ obr :: v := by
  intro k
  induction k with
  | nil =>
    intro u v hk hv
    have : u = [] := List.length_eq_zero.mp (Nat.le_zero.mp (by simpa using hk))
    subst this
    have hd : v.dropWhile (fun x => x ≠ cbr) = [] := by
      rw [List.dropWhile_eq_nil_iff]
      intro x hx
      simp only [ne_eq, decide_eq_true_eq]
      exact fun hxe => hv (hxe ▸ hx)
    rw [List.nil_append, braceScan_cons_open_none hd, braceScan_no_cbr v v le_rfl hv]
    rfl
  | cons _ ks ih =>
    intro u v hk hv
    cases u with
    | nil =>
      have hd : v.dropWhile (fun x => x ≠ cbr) = [] := by
        rw [List.dropWhile_eq_nil_iff]
        intro x hx
        simp only [ne_eq, decide_eq_true_eq]
        exact fun hxe => hv (hxe ▸ hx)
      rw [List.nil_append, braceScan_cons_open_none hd, braceScan_no_cbr v v le_rfl hv]
      rfl
    | cons c u2 =>
      have hu2 : u2.length ≤ ks.length := by
        simpa using Nat.le_of_succ_le_succ (by simpa using hk)
      by_cases hc : c = obr
      · subst hc
        rw [List.cons_append]
        cases hd2 : u2.dropWhile (fun x => x ≠ cbr) with
        | nil =>
          have hdall : (u2 ++ obr :: v).dropWhile (fun x => x ≠ cbr) = [] := by
            rw [List.dropWhile_append, hd2]
            simp only [List.isEmpty_nil, if_true]
            rw [List.dropWhile_cons_of_pos (by simp [obr, cbr]), List.dropWhile_eq_nil_iff]
            intro x hx
            simp only [ne_eq, decide_eq_true_eq]
            exact fun hxe => hv (hxe ▸ hx)
          rw [braceScan_cons_open_none hdall, braceScan_cons_open_none hd2,
            ih u2 v hu2 hv, List.cons_append]
        | cons d r =>
          have hdall : (u2 ++ obr :: v).dropWhile (fun x => x ≠ cbr) = d :: (r ++ obr :: v) := by
            rw [List.dropWhile_append, hd2]
            simp
          have hrlen : r.length ≤ ks.length := by
            have h1 : (u2.dropWhile (fun x => x ≠ cbr)).length ≤ u2.length :=
              (List.dropWhile_suffix _).length_le
            rw [hd2] at h1
            simp only [List.length_cons] at h1
            omega
          rw [braceScan_cons_open_some hdall, braceScan_cons_open_some hd2,
            ih r v hrlen hv]
      · rw [List.cons_append, braceScan_cons_copy _ hc, braceScan_cons_copy _ hc,
          ih u2 v hu2 hv, List.cons_append]

theorem braceScan_span {u : List Char} (v w : List Char)
    (hu : obr ∉ u) (hv : cbr ∉ v) :
    braceScan (u ++ obr :: (v ++ cbr :: w)) = u ++ braceScan w := by
  rw [braceScan_copy_front _ hu]
  congr 1
  have hd : (v ++ cbr :: w).dropWhile (fun x => x ≠ cbr) = cbr :: w := by
    rw [List.dropWhile_append]
    have hvd : v.dropWhile (fun x => x ≠ cbr) = [] := by
      rw [List.dropWhile_eq_nil_iff]
      intro x hx
      simp only [ne_eq, decide_eq_true_eq]
      exact fun hxe => hv (hxe ▸ hx)
    rw [hvd]
    simp
  rw [braceScan_cons_open_some hd]

theorem findCloseGo_irrel (s : List Char) :
    ∀ f g j, s.length ≤ j + f → s.length ≤ j + g → findCloseGo s f j = findCloseGo s g j := by
  intro f
  induction f with
  | zero =>
    intro g j hf hg
    have hj : ¬ j < s.length := by omega
    cases g with
    | zero => rfl
    | succ g =>
      have hfold : findCloseGo s (g + 1) j = j := by rw [findCloseGo, dif_neg hj]
      rw [hfold]
      rfl
  | succ f ih =>
    intro g j hf hg
    cases g with
    | zero =>
      have hj : ¬ j < s.length := by omega
      have hfold : findCloseGo s (f + 1) j = j := by rw [findCloseGo, dif_neg hj]
      exact hfold
    | succ g =>
      rw [findCloseGo, findCloseGo]
      by_cases hj : j < s.length
      · rw [dif_pos hj, dif_pos hj]
        by_cases hc : s.get ⟨j, hj⟩ = cbr
        · rw [if_pos hc, if_pos hc]
        · rw [if_neg hc, if_neg hc]
          exact ih g (j + 1) (by omega) (by omega)
      · rw [dif_neg hj, dif_neg hj]

theorem findClose_of_ge {s : List Char} {j : Nat} (h : s.length ≤ j) :
    findClose s j = j := by
  show findCloseGo s (s.length + 1) j = j
  rw [findCloseGo, dif_neg (by omega)]

theorem findClose_unfold_lt {s : List Char} {j : Nat} (h : j < s.length) :
    findClose s j = if s.get ⟨j, h⟩ = cbr then j else findClose s (j + 1) := by
  show findCloseGo s (s.length + 1) j = _
  rw [findCloseGo, dif_pos h]
  by_cases hc : s.get ⟨j, h⟩ = cbr
  · rw [if_pos hc, if_pos hc]
  · rw [if_neg hc, if_neg hc]
    exact findCloseGo_irrel s _ _ (j + 1) (by omega) (by omega)

theorem findClose_ge (s : List Char) :
    ∀ k j, s.length - j ≤ k → j ≤ findClose s j := by
  intro k
  induction k with
  | zero =>
    intro j hk
    rw [findClose_of_ge (by omega)]
  | succ k ih =>
    intro j hk
    by_cases hj : j < s.length
    · rw [findClose_unfold_lt hj]
      by_cases hc : s.get ⟨j, hj⟩ = cbr
      · rw [if_pos hc]
      · rw [if_neg hc]
        have := ih (j + 1) (by omega)
        omega
    · rw [findClose_of_ge (by omega)]

theorem findClose_dropWhile (s : List Char) :
    ∀ k j, s.length - j ≤ k →
      (s.drop j).dropWhile (fun x => x ≠ cbr) = s.drop (findClose s j) := by
  intro k
  induction k with
  | zero =>
    intro j hk
    have h1 : s.drop j = [] := List.drop_eq_nil_of_le (by omega)
    rw [findClose_of_ge (by omega), h1]
    rfl
  | succ k ih =>
    intro j hk
    by_cases hj : j < s.length
    · have hdrop : s.drop j = s[j] :: s.drop (j + 1) := List.drop_eq_getElem_cons hj
      have hgc : s[j] = s.get ⟨j, hj⟩ := (List.get_eq_getElem s ⟨j, hj⟩).symm
      rw [findClose_unfold_lt hj, hdrop]
      by_cases hc : s.get ⟨j, hj⟩ = cbr
      · rw [if_pos hc]
        rw [List.dropWhile_cons_of_neg (by
          simp only [ne_eq, decide_eq_true_eq, Decidable.not_not]
          rw [hgc]
          exact hc), ← hdrop]
      · rw [if_neg hc]
        rw [List.dropWhile_cons_of_pos (by
          simp only [ne_eq, decide_eq_true_eq]
          rw [hgc]
          exact hc)]
        exact ih (j + 1) (by omega)
    · rw [findClose_of_ge (by omega), List.drop_eq_nil_of_le (by omega)]
      rfl

theorem braceLoopGo_eq_scan (s : List Char) :
    ∀ k i f, s.length - i ≤ k → s.length < i + f →
      braceLoopGo s f i = braceScan (s.drop i) := by
  intro k
  induction k with
  | zero =>
    intro i f hk hf
    have hi : s.length ≤ i := by omega
    rw [List.drop_eq_nil_of_le hi, braceScan_nil]
    cases f with
    | zero => rfl
    | succ f => rw [braceLoopGo, dif_neg (by omega)]
  | succ k ih =>
    intro i f hk hf
    by_cases hi : i < s.length
    · cases f with
      | zero => omega
      | succ f =>
        have hdrop : s.drop i = s[i] :: s.drop (i + 1) := List.drop_eq_getElem_cons hi
        have hgc : s[i] = s.get ⟨i, hi⟩ := (List.get_eq_getElem s ⟨i, hi⟩).symm
        rw [braceLoopGo, dif_pos hi]
        by_cases hc : s.get ⟨i, hi⟩ = obr
        · rw [if_pos hc]
          have hfc : findClose s i = findClose s (i + 1) := by
            rw [findClose_unfold_lt hi, if_neg (by rw [hc]; decide)]
          have hdw : (s.drop (i + 1)).dropWhile (fun x => x ≠ cbr) =
              s.drop (findClose s i) := by
            rw [hfc]
            exact findClose_dropWhile s (s.length - (i + 1)) (i + 1) le_rfl
          by_cases hlt : findClose s i < s.length
          · rw [if_pos hlt]
            have hge : i ≤ findClose s i := findClose_ge s (s.length - i) i le_rfl
            have hfcdrop : s.drop (findClose s i) =
                s[findClose s i] :: s.drop (findClose s i + 1) :=
              List.drop_eq_getElem_cons hlt
            have hIH : braceLoopGo s f (findClose s i + 1) =
                braceScan (s.drop (findClose s i + 1)) :=
              ih (findClose s i + 1) f (by omega) (by omega)
            rw [hIH, hdrop, hgc, hc]
            rw [braceScan_cons_open_some (by rw [hdw, hfcdrop])]
          · rw [if_neg hlt]
            have hIH : braceLoopGo s f (i + 1) = braceScan (s.drop (i + 1)) :=
              ih (i + 1) f (by omega) (by omega)
            rw [hIH, hdrop, hgc, hc]
            rw [braceScan_cons_open_none (by
              rw [hdw]
              exact List.drop_eq_nil_of_le (by omega))]
        · rw [if_neg hc]
          have hIH : braceLoopGo s f (i + 1) = braceScan (s.drop (i + 1)) :=
            ih (i + 1) f (by omega) (by omega)
          rw [hIH, hdrop, hgc]
          rw [braceScan_cons_copy _ hc]
    · have his : s.length ≤ i := by omega
      rw [List.drop_eq_nil_of_le his, braceScan_nil]
      cases f with
      | zero => rfl
      | succ f => rw [braceLoopGo, dif_neg (by omega)]

theorem braceStrip_eq_braceScan (s : List Char) : braceStrip s = braceScan s := by
  have h := braceLoopGo_eq_scan s s.length 0 (s.length + 1) (by omega) (by omega)
  rw [List.drop_zero] at h
  exact h

theorem braceLoopAccGo_append (s : List Char) :
    ∀ f acc i, braceLoopAccGo s f acc i = acc ++ braceLoopGo s f i := by
  intro f
  induction f with
  | zero =>
    intro acc i
    simp [braceLoopAccGo, braceLoopGo]
  | succ f ih =>
    intro acc i
    rw [braceLoopAccGo, braceLoopGo]
    by_cases hi : i < s.length
    · rw [dif_pos hi, dif_pos hi]
      by_cases hc : s.get ⟨i, hi⟩ = obr
      · rw [if_pos hc, if_pos hc]
        by_cases hlt : findClose s i < s.length
        · rw [if_pos hlt, if_pos hlt, ih]
        · rw [if_neg hlt, if_neg hlt, ih]
          simp
      · rw [if_neg hc, if_neg hc, ih]
        simp
    · rw [dif_neg hi, dif_neg hi]
      simp

theorem splitOnChar_ne_nil (sep : Char) : ∀ s, splitOnChar sep s ≠ [] := by
  intro s
  cases s with
  | nil => simp [splitOnChar]
  | cons c t =>
    rw [splitOnChar]
    by_cases hc : c = sep
    · rw [if_pos hc]; simp
    · rw [if_neg hc]
      cases h : splitOnChar sep t with
      | nil => simp
      | cons w ws => simp

theorem splitOnChar_no_sep {sep : Char} : ∀ w, sep ∉ w → splitOnChar sep w = [w] := by
  intro w
  induction w with
  | nil => intro _; rfl
  | cons c t ih =>
    intro hmem
    have hc : c ≠ sep := fun h => hmem (h ▸ List.mem_cons_self c t)
    rw [splitOnChar, if_neg hc, ih (fun h => hmem (List.mem_cons_of_mem c h))]

theorem splitOnChar_append {sep : Char} :
    ∀ w r, sep ∉ w → splitOnChar sep (w ++ sep :: r) = w :: splitOnChar sep r := by
  intro w
  induction w with
  | nil =>
    intro r _
    rw [List.nil_append, splitOnChar, if_pos rfl]
  | cons c t ih =>
    intro r hmem
    have hc : c ≠ sep := fun h => hmem (h ▸ List.mem_cons_self c t)
    rw [List.cons_append, splitOnChar, if_neg hc,
      ih r (fun h => hmem (List.mem_cons_of_mem c h))]

theorem splitOnChar_joinWith {sep : Char} :
    ∀ ws : List (List Char), ws ≠ [] → (∀ w ∈ ws, sep ∉ w) →
      splitOnChar sep (joinWith [sep] ws) = ws := by
  intro ws
  induction ws with
  | nil => intro h _; exact absurd rfl h
  | cons w ws ih =>
    intro _ hmem
    cases ws with
    | nil =>
      show splitOnChar sep w = [w]
      exact splitOnChar_no_sep w (hmem w (List.mem_cons_self w []))
    | cons w2 ws2 =>
      have hjoin : joinWith [sep] (w :: w2 :: ws2) = w ++ sep :: joinWith [sep] (w2 :: ws2) := by
        show w ++ [sep] ++ joinWith [sep] (w2 :: ws2) = _
        rw [List.append_assoc]
        rfl
      rw [hjoin, splitOnChar_append _ _ (hmem w (List.mem_cons_self w _)),
        ih (by simp) (fun x hx => hmem x (List.mem_cons_of_mem w hx))]

theorem trimSpace_of_noWS {s : List Char} (h : ∀ c ∈ s, ¬ isSpaceGo c = true) :
    trimSpace s = s := by
  have h1 : s.dropWhile isSpaceGo = s := by
    cases s with
    | nil => rfl
    | cons c t =>
      exact List.dropWhile_cons_of_neg (h c (List.mem_cons_self c t))
  show ((s.dropWhile isSpaceGo).reverse.dropWhile isSpaceGo).reverse = s
  rw [h1]
  have h2 : s.reverse.dropWhile isSpaceGo = s.reverse := by
    cases hr : s.reverse with
    | nil => rfl
    | cons c t =>
      refine List.dropWhile_cons_of_neg (h c ?_)
      have : c ∈ s.reverse := by rw [hr]; exact List.mem_cons_self c t
      exact List.mem_reverse.mp this
  rw [h2, List.reverse_reverse]

mutual

theorem getTextContent_of_noWS : ∀ n : Node, textNoWS n = true →
    getTextContent n = collectText n ∧ ∀ c ∈ collectText n, ¬ isSpaceGo c = true := by
  intro n hn
  cases n with
  | element tag attrs cs =>
    have hcs : textNoWSList cs = true := by
      rw [textNoWS] at hn
      exact hn
    have hrec := gtcChildren_of_noWS cs hcs
    rw [getTextContent, collectText, List.nil_append, List.nil_append, hrec.1]
    exact ⟨trimSpace_of_noWS hrec.2, hrec.2⟩
  | text d cs =>
    rw [textNoWS] at hn
    rcases Bool.and_eq_true _ _ |>.mp hn with ⟨hd, hcs⟩
    have hdm : ∀ c ∈ d, ¬ isSpaceGo c = true := by
      intro c hc
      have := List.all_eq_true.mp hd c hc
      simpa using this
    have hrec := gtcChildren_of_noWS cs hcs
    have hmem : ∀ c ∈ d ++ collectTextList cs, ¬ isSpaceGo c = true := by
      intro c hc
      rcases List.mem_append.mp hc with h | h
      · exact hdm c h
      · exact hrec.2 c h
    rw [getTextContent, collectText, hrec.1]
    exact ⟨trimSpace_of_noWS hmem, hmem⟩
  | other cs =>
    have hcs : textNoWSList cs = true := by
      rw [textNoWS] at hn
      exact hn
    have hrec := gtcChildren_of_noWS cs hcs
    rw [getTextContent, collectText, List.nil_append, List.nil_append, hrec.1]
    exact ⟨trimSpace_of_noWS hrec.2, hrec.2⟩
termination_by n => sizeOf n

theorem gtcChildren_of_noWS : ∀ cs : List Node, textNoWSList cs = true →
    gtcChildren cs = collectTextList cs ∧
      ∀ c ∈ collectTextList cs, ¬ isSpaceGo c = true := by
  intro cs hcs
  cases cs with
  | nil =>
    refine ⟨by simp [gtcChildren, collectTextList], ?_⟩
    intro c hc
    simp [collectTextList] at hc
  | cons n ns =>
    rw [textNoWSList] at hcs
    rcases Bool.and_eq_true _ _ |>.mp hcs with ⟨h1, h2⟩
    have hn := getTextContent_of_noWS n h1
    have hns := gtcChildren_of_noWS ns h2
    rw [gtcChildren, collectTextList, hn.1, hns.1]
    refine ⟨rfl, ?_⟩
    intro c hc
    rcases List.mem_append.mp hc with h | h
    · exact hn.2 c h
    · exact hns.2 c h
termination_by cs => sizeOf cs

end

mutual

theorem extractPaths_nodeAt : ∀ n : Node,
    (extractPaths n).map (nodeAt n) = (extractNodes n).map some := by
  intro n
  cases n with
  | element tag attrs cs =>
    rw [extractPaths, extractNodes]
    by_cases ht : isTargetElement (.element tag attrs cs) = true
    · rw [if_pos ht, if_pos ht]
      rfl
    · rw [if_neg ht, if_neg ht]
      exact extractPathsList_nodeAt cs 0 (.element tag attrs cs) (fun j => by
        simp [Node.children])
  | text d cs =>
    rw [extractPaths, extractNodes]
    by_cases ht : isTargetElement (.text d cs) = true
    · rw [if_pos ht, if_pos ht]
      rfl
    · rw [if_neg ht, if_neg ht]
      exact extractPathsList_nodeAt cs 0 (.text d cs) (fun j => by
        simp [Node.children])
  | other cs =>
    rw [extractPaths, extractNodes]
    by_cases ht : isTargetElement (.other cs) = true
    · rw [if_pos ht, if_pos ht]
      rfl
    · rw [if_neg ht, if_neg ht]
      exact extractPathsList_nodeAt cs 0 (.other cs) (fun j => by
        simp [Node.children])
termination_by n => sizeOf n

theorem extractPathsList_nodeAt : ∀ (cs : List Node) (k : Nat) (n : Node),
    (∀ j : Nat, n.children.get? (k + j) = cs.get? j) →
    (extractPathsList k cs).map (nodeAt n) = (extractList cs).map some := by
  intro cs k n hget
  cases cs with
  | nil => simp [extractPathsList, extractList]
  | cons c cs2 =>
    rw [extractPathsList, extractList]
    rw [List.map_append, List.map_append]
    congr 1
    · have hk : n.children.get? k = some c := by
        have := hget 0
        simpa using this
      rw [List.map_map]
      have hpt : ∀ p ∈ extractPaths c, (nodeAt n ∘ (k :: ·)) p = nodeAt c p := by
        intro p _
        show nodeAt n (k :: p) = nodeAt c p
        rw [nodeAt, hk]
      rw [List.map_congr_left hpt]
      exact extractPaths_nodeAt c
    · refine extractPathsList_nodeAt cs2 (k + 1) n (fun j => ?_)
      have := hget (j + 1)
      have harith : k + (j + 1) = k + 1 + j := by omega
      rw [harith] at this
      simpa using this
termination_by cs => sizeOf cs

end

mutual

theorem extractPaths_pairwise : ∀ n : Node, (extractPaths n).Pairwise pathIndep := by
  intro n
  cases n with
  | element tag attrs cs =>
    rw [extractPaths]
    by_cases ht : isTargetElement (.element tag attrs cs) = true
    · rw [if_pos ht]
      exact List.pairwise_singleton _ _
    · rw [if_neg ht]
      exact (extractPathsList_pairwise cs 0).1
  | text d cs =>
    rw [extractPaths]
    by_cases ht : isTargetElement (.text d cs) = true
    · rw [if_pos ht]
      exact List.pairwise_singleton _ _
    · rw [if_neg ht]
      exact (extractPathsList_pairwise cs 0).1
  | other cs =>
    rw [extractPaths]
    by_cases ht : isTargetElement (.other cs) = true
    · rw [if_pos ht]
      exact List.pairwise_singleton _ _
    · rw [if_neg ht]
      exact (extractPathsList_pairwise cs 0).1
termination_by n => sizeOf n

theorem extractPathsList_pairwise : ∀ (cs : List Node) (k : Nat),
    (extractPathsList k cs).Pairwise pathIndep ∧
    ∀ p ∈ extractPathsList k cs, ∃ i p2, p = i :: p2 ∧ k ≤ i := by
  intro cs k
  cases cs with
  | nil =>
    refine ⟨by simp [extractPathsList], ?_⟩
    intro p hp
    simp [extractPathsList] at hp
  | cons c cs2 =>
    have h1 := extractPaths_pairwise c
    have h2 := extractPathsList_pairwise cs2 (k + 1)
    rw [extractPathsList]
    constructor
    · rw [List.pairwise_append]
      refine ⟨?_, h2.1, ?_⟩
      · rw [List.pairwise_map]
        refine h1.imp ?_
        intro p q hpq
        constructor
        · intro hpre
          exact hpq.1 (List.cons_prefix_cons.mp hpre).2
        · have := hpq.2
          simp [pathLt, this]
      · intro p hp q hq
        rcases List.mem_map.mp hp with ⟨p0, -, hp0⟩
        rcases h2.2 q hq with ⟨i, q2, hq2, hki⟩
        subst hp0
        subst hq2
        have hklt : k < i := by omega
        constructor
        · intro hpre
          have := (List.cons_prefix_cons.mp hpre).1
          omega
        · simp [pathLt, hklt]
    · intro p hp
      rcases List.mem_append.mp hp with h | h
      · rcases List.mem_map.mp h with ⟨p0, -, hp0⟩
        exact ⟨k, p0, hp0.symm, le_rfl⟩
      · rcases h2.2 p h with ⟨i, p2, hpp, hki⟩
        exact ⟨i, p2, hpp, by omega⟩
termination_by cs => sizeOf cs

end

theorem hasNoAttributes_pair (attrs : List Attr) (k1 k2 : String) :
    hasNoAttributes attrs [k1, k2] = true ↔ ∀ a ∈ attrs, a.key ≠ k1 ∧ a.key ≠ k2 := by
  simp [hasNoAttributes, List.all_eq_true]

theorem photogimg_any (attrs : List Attr) :
    (attrs.any fun attr => attr.key = "class" && attr.val = "photogimg") = true ↔
      ∃ a ∈ attrs, a.key = "class" ∧ a.val = "photogimg" := by
  simp [List.any_eq_true]

/-- Claim C1, counterexample: the claim says the input "a{bc" (written here
as the character list a, open brace, b, c) produces "a"; the code instead
produces the input unchanged, because when the inner loop finds no closing
brace the opening brace falls through to `WriteByte` and scanning resumes. -/
theorem c1_counterexample : ¬ braceStrip ['a', obr, 'b', 'c'] = ['a'] := by decide

/-- Claim C1 as amended: for every input containing an opening brace with no
closing brace anywhere after it, the opening brace and everything after it
are copied to the output unchanged (as a suffix), not dropped; the text
before that point is processed normally. -/
theorem c1_braceStrip_unterminated (u v : List Char) (hv : cbr ∉ v) :
    braceStrip (u ++ obr :: v) = braceStrip u ++ obr :: v := by
  rw [braceStrip_eq_braceScan, braceStrip_eq_braceScan]
  exact braceScan_open_unterminated u u v le_rfl hv

/-- Claim C1 witness: the amended statement at the concrete input "a{bc". -/
theorem c1_witness : braceStrip (['a'] ++ obr :: ['b', 'c']) = braceStrip ['a'] ++ obr :: ['b', 'c'] :=
  c1_braceStrip_unterminated ['a'] ['b', 'c'] (by decide)

/-- Claim C5: when an opening brace is followed by a later closing brace, the
span through the first (nearest) closing brace is skipped — not
nesting-aware, an opening brace inside the span does not extend it — and
characters outside spans are copied through unchanged in order; the three
examples of the spec ("a{b}c" → "ac", "a{b}{c}d" → "ad",
"a{b{c}d}e" → "ad}e") evaluate as stated, and the pass is a total function. -/
theorem c5_braceStrip_span (u v w : List Char) (hu : obr ∉ u) (hv : cbr ∉ v) :
    braceStrip (u ++ obr :: (v ++ cbr :: w)) = u ++ braceStrip w ∧
    braceStrip ['a', obr, 'b', cbr, 'c'] = ['a', 'c'] ∧
    braceStrip ['a', obr, 'b', cbr, obr, 'c', cbr, 'd'] = ['a', 'd'] ∧
    braceStrip ['a', obr, 'b', obr, 'c', cbr, 'd', cbr, 'e'] = ['a', 'd', cbr, 'e'] := by
  refine ⟨?_, by decide, by decide, by decide⟩
  rw [braceStrip_eq_braceScan, braceStrip_eq_braceScan]
  exact braceScan_span v w hu hv

/-- Claim C5 witness: the span property at a concrete input with a
nested-looking opening brace inside the span. -/
theorem c5_witness :
    braceStrip (['x'] ++ obr :: (['y', obr] ++ cbr :: ['z'])) = ['x'] ++ braceStrip ['z'] :=
  (c5_braceStrip_span ['x'] ['y', obr] ['z'] (by decide) (by decide)).1

/-- Claim C3, counterexample: on the line "(../index.html)" the two
substring replacements do not commute — applying the `(../` rewrite first
yields "(index.html)", applying the `/index.html)` rewrite first
yields "(..)". -/
theorem c3_counterexample :
    ¬ replIndex (replOpen overlapWord) = replOpen (replIndex overlapWord) := by decide

/-- Claim C3 as amended: the two replacement orders agree on every line that
does not contain the substring "(../index.html)" — the one word in which the
two patterns overlap; they can differ on lines containing that substring. -/
theorem c3_replace_commute (line : List Char) (h : ¬ overlapWord <:+: line) :
    replIndex (replOpen line) = replOpen (replIndex line) :=
  (replIndex_replOpen_aux line.length line le_rfl).trans
    (replOpen_replIndex_aux line.length line le_rfl h).symm

/-- Claim C3 witness: the amended commutation at the spec's example line
"text (../page/index.html)". -/
theorem c3_witness :
    replIndex (replOpen ("text (../page/index.html)".toList)) =
      replOpen (replIndex ("text (../page/index.html)".toList)) :=
  c3_replace_commute ("text (../page/index.html)".toList) (by decide)

/-- Claim C4, counterexample: the claim says title derivation on
"tokyo-city-guide" returns "Tokyo City guide"; the code upper-cases the
first letter of every hyphen segment, so the third segment is also
capitalized. -/
theorem c4_counterexample :
    ¬ formatDirName ("tokyo-city-guide".toList) = "Tokyo City guide".toList := by decide

/-- Claim C4 as amended: title derivation on "tokyo-city-guide" returns
exactly "Tokyo City Guide" (every segment capitalized). -/
theorem c4_formatDirName_tokyo :
    formatDirName ("tokyo-city-guide".toList) = "Tokyo City Guide".toList := by decide

/-- Claim C7: extraction emits, in document (pre-)order, exactly the nodes
sitting at the emitted tree positions, and those positions are pairwise
independent: no emitted position is an ancestor (proper prefix) of another,
and they are strictly increasing in lexicographic (document) order. -/
theorem c7_extract_independent (doc : Node) :
    (extractPaths doc).map (nodeAt doc) = (extractNodes doc).map some ∧
    (extractPaths doc).Pairwise pathIndep :=
  ⟨extractPaths_nodeAt doc, extractPaths_pairwise doc⟩

/-- Claim C10: the three post-processing passes touch only the converted
text: for every base name, category, tag, date and converted text — with no
restriction on the characters they contain — the output document is exactly
the front-matter block followed by the post-processed body. -/
theorem c10_frontmatter_untouched (base category tag date md : List Char) :
    processOutput base category tag date md =
      metaBlock base category tag date ++ postProcessText md := by
  show braceLoopAccGo (directivePass (replaceAll marker [] md)) _ _ 0 = _
  rw [braceLoopAccGo_append]
  rfl

/-- Claim C2, counterexample: for the paragraph node containing the two text
children "Copy " and " right", the code's flattened text is "Copyright"
(each recursion level trims, so the boundary whitespace disappears) while
the spec's flattening — concatenate all text data, trim only at the ends —
gives "Copy  right"; consequently the classifier rejects this paragraph even
though its spec-flattened text does not contain "Copyright". -/
theorem c2_counterexample :
    ¬ getTextContent (.element "p" [] [.text "Copy ".toList [], .text " right".toList []]) =
        specFlatten (.element "p" [] [.text "Copy ".toList [], .text " right".toList []]) ∧
    isTargetElement (.element "p" [] [.text "Copy ".toList [], .text " right".toList []]) = false ∧
    containsSub "Copyright".toList
      (specFlatten (.element "p" [] [.text "Copy ".toList [], .text " right".toList []])) = false := by
  refine ⟨?_, ?_, ?_⟩
  · simp only [getTextContent, gtcChildren, specFlatten, collectText, collectTextList]
    decide
  · simp only [isTargetElement, getTextContent, gtcChildren, hasNoAttributes]
    decide
  · simp only [specFlatten, collectText, collectTextList]
    decide

/-- Claim C2 as amended: the flattening used by the classifier trims
leading and trailing whitespace at every level of the recursion, not only at
the top, so whitespace adjacent to text-node and element boundaries is
dropped from the interior; it coincides with the spec's
concatenate-then-trim-once flattening whenever no text node in the subtree
contains a whitespace character (whitespace in the sense of Go
`unicode.IsSpace`, which `textNoWS` renders via `isSpaceGo`). -/
theorem c2_flatten_agree (n : Node) (h : textNoWS n = true) :
    getTextContent n = specFlatten n := by
  have hrec := getTextContent_of_noWS n h
  show getTextContent n = trimSpace (collectText n)
  rw [hrec.1, trimSpace_of_noWS hrec.2]

/-- Claim C2 witness: the agreement at a concrete whitespace-free paragraph. -/
theorem c2_witness :
    getTextContent (.element "p" [] [.text "ab".toList [], .text "cd".toList []]) =
      specFlatten (.element "p" [] [.text "ab".toList [], .text "cd".toList []]) :=
  c2_flatten_agree (.element "p" [] [.text "ab".toList [], .text "cd".toList []]) (by
    simp only [textNoWS, textNoWSList]
    decide)

/-- Claim C8: directive-line filtering splits the text on newline, drops
every line that after trimming starts with ":::", rewrites the two link
patterns on each surviving line, and rejoins the survivors with newline in
their original order; in particular the line "  ::: note" is dropped
entirely and "text (../page/index.html)" becomes "text (page)".  The trim
uses the full Go whitespace set, so a line led by a vertical tab before the
":::" marker is dropped as well. -/
theorem c8_directive_pass (ls : List (List Char)) (h1 : ls ≠ [])
    (h2 : ∀ l ∈ ls, '\n' ∉ l) :
    directivePass (joinWith "\n".toList ls) = joinWith "\n".toList (ls.filterMap lineStep) ∧
    directivePass ("  ::: note".toList) = [] ∧
    directivePass ("text (../page/index.html)".toList) = "text (page)".toList ∧
    directivePass ("\x0b::: note".toList) = [] := by
  refine ⟨?_, by decide, by decide, by decide⟩
  show joinWith "\n".toList ((splitOnChar '\n' (joinWith "\n".toList ls)).filterMap lineStep) = _
  have hconv : joinWith "\n".toList ls = joinWith ['\n'] ls := rfl
  rw [hconv, splitOnChar_joinWith ls h1 h2]

/-- Claim C8 witness: the split-filter-join characterization at a concrete
two-line text whose first line is a directive line. -/
theorem c8_witness :
    directivePass (joinWith "\n".toList ["::: open".toList, "abc".toList]) =
      joinWith "\n".toList (["::: open".toList, "abc".toList].filterMap lineStep) :=
  (c8_directive_pass ["::: open".toList, "abc".toList] (by decide) (by decide)).1

/-- Claim C9: title derivation splits the base name on hyphens, upper-cases
the first character of each non-empty segment leaving the rest unchanged,
and rejoins the segments with single spaces; it is total, and empty segments
from adjacent or edge hyphens survive as empty segments, yielding the extra
spaces shown by the two concrete edge cases. -/
theorem c9_formatDirName (ws : List (List Char)) (h1 : ws ≠ [])
    (h2 : ∀ w ∈ ws, '-' ∉ w) :
    formatDirName (joinWith "-".toList ws) = joinWith " ".toList (ws.map capFirst) ∧
    formatDirName ("a--b".toList) = "A  B".toList ∧
    formatDirName ("-ab".toList) = " Ab".toList := by
  refine ⟨?_, by decide, by decide⟩
  show joinWith " ".toList ((splitOnChar '-' (joinWith "-".toList ws)).map capFirst) = _
  have hconv : joinWith "-".toList ws = joinWith ['-'] ws := rfl
  rw [hconv, splitOnChar_joinWith ws h1 h2]

/-- Claim C9 witness: the split-capitalize-join characterization at the
segments of "tokyo-city-guide". -/
theorem c9_witness :
    formatDirName (joinWith "-".toList ["tokyo".toList, "city".toList, "guide".toList]) =
      joinWith " ".toList (["tokyo".toList, "city".toList, "guide".toList].map capFirst) :=
  (c9_formatDirName ["tokyo".toList, "city".toList, "guide".toList] (by decide) (by decide)).1

/-- Claim C6: the classifier keeps a node iff it is an element and one of
the five keep-rules applies — ul with no id or style key, p with no class or
style key and no "Copyright" in its flattened text, h3 with no class or id
key and no "District Map" in its flattened text, h1 or h2 with no class or
id key, or div with some attribute keyed class whose value is exactly
"photogimg"; every other node is rejected, and the attribute checks reject
on key presence alone. -/
theorem c6_classifier_iff (n : Node) : isTargetElement n = true ↔ KeepSpec n := by
  cases n with
  | text d cs =>
    simp only [isTargetElement, KeepSpec]
    constructor
    · intro h
      exact absurd h (by simp)
    · rintro (⟨a2, c2, heq, -⟩ | ⟨a2, c2, heq, -⟩ | ⟨a2, c2, heq, -, -⟩ |
        ⟨t2, a2, c2, heq, -, -⟩ | ⟨a2, c2, heq, -⟩) <;> simp at heq
  | other cs =>
    simp only [isTargetElement, KeepSpec]
    constructor
    · intro h
      exact absurd h (by simp)
    · rintro (⟨a2, c2, heq, -⟩ | ⟨a2, c2, heq, -⟩ | ⟨a2, c2, heq, -, -⟩ |
        ⟨t2, a2, c2, heq, -, -⟩ | ⟨a2, c2, heq, -⟩) <;> simp at heq
  | element tag attrs cs =>
    simp only [isTargetElement]
    by_cases h1 : tag = "ul"
    · subst h1
      rw [if_pos rfl]
      constructor
      · intro h
        exact Or.inl ⟨attrs, cs, rfl, (hasNoAttributes_pair attrs "id" "style").mp h⟩
      · rintro (⟨a2, c2, heq, hcond⟩ | ⟨a2, c2, heq, -, -⟩ | ⟨a2, c2, heq, -, -⟩ |
          ⟨t2, a2, c2, heq, ht2, -⟩ | ⟨a2, c2, heq, -⟩)
        · rw [Node.element.injEq] at heq
          obtain ⟨-, ha, -⟩ := heq
          subst ha
          exact (hasNoAttributes_pair attrs "id" "style").mpr hcond
        · rw [Node.element.injEq] at heq
          exact absurd heq.1 (by decide)
        · rw [Node.element.injEq] at heq
          exact absurd heq.1 (by decide)
        · rw [Node.element.injEq] at heq
          rcases ht2 with h | h <;> rw [h] at heq <;> exact absurd heq.1 (by decide)
        · rw [Node.element.injEq] at heq
          exact absurd heq.1 (by decide)
    · rw [if_neg h1]
      by_cases h2 : tag = "p"
      · subst h2
        rw [if_pos rfl]
        by_cases hna : hasNoAttributes attrs ["class", "style"] = true
        · rw [if_neg (by simp [hna])]
          constructor
          · intro h
            refine Or.inr (Or.inl ⟨attrs, cs, rfl,
              (hasNoAttributes_pair attrs "class" "style").mp hna, ?_⟩)
            simpa using h
          · rintro (⟨a2, c2, heq, -⟩ | ⟨a2, c2, heq, -, hcont⟩ | ⟨a2, c2, heq, -, -⟩ |
              ⟨t2, a2, c2, heq, ht2, -⟩ | ⟨a2, c2, heq, -⟩)
            · rw [Node.element.injEq] at heq
              exact absurd heq.1 (by decide)
            · rw [Node.element.injEq] at heq
              obtain ⟨-, ha, hc⟩ := heq
              subst ha
              subst hc
              simpa using hcont
            · rw [Node.element.injEq] at heq
              exact absurd heq.1 (by decide)
            · rw [Node.element.injEq] at heq
              rcases ht2 with h | h <;> rw [h] at heq <;> exact absurd heq.1 (by decide)
            · rw [Node.element.injEq] at heq
              exact absurd heq.1 (by decide)
        · have hFalse : hasNoAttributes attrs ["class", "style"] = false :=
            Bool.eq_false_iff.mpr hna
          rw [if_pos (by rw [hFalse]; rfl)]
          constructor
          · intro h
            exact absurd h (by simp)
          · rintro (⟨a2, c2, heq, -⟩ | ⟨a2, c2, heq, hpair, -⟩ | ⟨a2, c2, heq, -, -⟩ |
              ⟨t2, a2, c2, heq, ht2, -⟩ | ⟨a2, c2, heq, -⟩)
            · rw [Node.element.injEq] at heq
              exact absurd heq.1 (by decide)
            · rw [Node.element.injEq] at heq
              obtain ⟨-, ha, -⟩ := heq
              subst ha
              exact absurd ((hasNoAttributes_pair attrs "class" "style").mpr hpair) hna
            · rw [Node.element.injEq] at heq
              exact absurd heq.1 (by decide)
            · rw [Node.element.injEq] at heq
              rcases ht2 with h | h <;> rw [h] at heq <;> exact absurd heq.1 (by decide)
            · rw [Node.element.injEq] at heq
              exact absurd heq.1 (by decide)
      · rw [if_neg h2]
        by_cases h3 : tag = "h3"
        · subst h3
          rw [if_pos rfl]
          by_cases hna : hasNoAttributes attrs ["class", "id"] = true
          · rw [if_neg (by simp [hna])]
            constructor
            · intro h
              refine Or.inr (Or.inr (Or.inl ⟨attrs, cs, rfl,
                (hasNoAttributes_pair attrs "class" "id").mp hna, ?_⟩))
              simpa using h
            · rintro (⟨a2, c2, heq, -⟩ | ⟨a2, c2, heq, -, -⟩ | ⟨a2, c2, heq, -, hcont⟩ |
                ⟨t2, a2, c2, heq, ht2, -⟩ | ⟨a2, c2, heq, -⟩)
              · rw [Node.element.injEq] at heq
                exact absurd heq.1 (by decide)
              · rw [Node.element.injEq] at heq
                exact absurd heq.1 (by decide)
              · rw [Node.element.injEq] at heq
                obtain ⟨-, ha, hc⟩ := heq
                subst ha
                subst hc
                simpa using hcont
              · rw [Node.element.injEq] at heq
                rcases ht2 with h | h <;> rw [h] at heq <;> exact absurd heq.1 (by decide)
              · rw [Node.element.injEq] at heq
                exact absurd heq.1 (by decide)
          · have hFalse : hasNoAttributes attrs ["class", "id"] = false :=
              Bool.eq_false_iff.mpr hna
            rw [if_pos (by rw [hFalse]; rfl)]
            constructor
            · intro h
              exact absurd h (by simp)
            · rintro (⟨a2, c2, heq, -⟩ | ⟨a2, c2, heq, -, -⟩ | ⟨a2, c2, heq, hpair, -⟩ |
                ⟨t2, a2, c2, heq, ht2, -⟩ | ⟨a2, c2, heq, -⟩)
              · rw [Node.element.injEq] at heq
                exact absurd heq.1 (by decide)
              · rw [Node.element.injEq] at heq
                exact absurd heq.1 (by decide)
              · rw [Node.element.injEq] at heq
                obtain ⟨-, ha, -⟩ := heq
                subst ha
                exact absurd ((hasNoAttributes_pair attrs "class" "id").mpr hpair) hna
              · rw [Node.element.injEq] at heq
                rcases ht2 with h | h <;> rw [h] at heq <;> exact absurd heq.1 (by decide)
              · rw [Node.element.injEq] at heq
                exact absurd heq.1 (by decide)
        · rw [if_neg h3]
          by_cases h4 : tag = "h1" ∨ tag = "h2"
          · rw [if_pos h4]
            constructor
            · intro h
              exact Or.inr (Or.inr (Or.inr (Or.inl ⟨tag, attrs, cs, rfl, h4,
                (hasNoAttributes_pair attrs "class" "id").mp h⟩)))
            · rintro (⟨a2, c2, heq, -⟩ | ⟨a2, c2, heq, -, -⟩ | ⟨a2, c2, heq, -, -⟩ |
                ⟨t2, a2, c2, heq, -, hpair⟩ | ⟨a2, c2, heq, -⟩)
              · rw [Node.element.injEq] at heq
                exact absurd heq.1 h1
              · rw [Node.element.injEq] at heq
                exact absurd heq.1 h2
              · rw [Node.element.injEq] at heq
                exact absurd heq.1 h3
              · rw [Node.element.injEq] at heq
                obtain ⟨-, ha, -⟩ := heq
                subst ha
                exact (hasNoAttributes_pair attrs "class" "id").mpr hpair
              · rw [Node.element.injEq] at heq
                have hd : tag = "div" := heq.1
                rcases h4 with h | h <;> rw [h] at hd <;> exact absurd hd (by decide)
          · rw [if_neg h4]
            by_cases h5 : tag = "div"
            · subst h5
              rw [if_pos rfl]
              constructor
              · intro h
                exact Or.inr (Or.inr (Or.inr (Or.inr ⟨attrs, cs, rfl,
                  (photogimg_any attrs).mp h⟩)))
              · rintro (⟨a2, c2, heq, -⟩ | ⟨a2, c2, heq, -, -⟩ | ⟨a2, c2, heq, -, -⟩ |
                  ⟨t2, a2, c2, heq, ht2, -⟩ | ⟨a2, c2, heq, hex⟩)
                · rw [Node.element.injEq] at heq
                  exact absurd heq.1 (by decide)
                · rw [Node.element.injEq] at heq
                  exact absurd heq.1 (by decide)
                · rw [Node.element.injEq] at heq
                  exact absurd heq.1 (by decide)
                · rw [Node.element.injEq] at heq
                  rcases ht2 with h | h <;> rw [h] at heq <;> exact absurd heq.1 (by decide)
                · rw [Node.element.injEq] at heq
                  obtain ⟨-, ha, -⟩ := heq
                  subst ha
                  exact (photogimg_any attrs).mpr hex
            · rw [if_neg h5]
              constructor
              · intro h
                exact absurd h (by simp)
              · rintro (⟨a2, c2, heq, -⟩ | ⟨a2, c2, heq, -, -⟩ | ⟨a2, c2, heq, -, -⟩ |
                  ⟨t2, a2, c2, heq, ht2, -⟩ | ⟨a2, c2, heq, -⟩)
                · rw [Node.element.injEq] at heq
                  exact absurd heq.1 h1
                · rw [Node.element.injEq] at heq
                  exact absurd heq.1 h2
                · rw [Node.element.injEq] at heq
                  exact absurd heq.1 h3
                · rw [Node.element.injEq] at heq
                  refine absurd ?_ h4
                  rcases ht2 with h | h
                  · exact Or.inl (heq.1.trans h)
                  · exact Or.inr (heq.1.trans h)
                · rw [Node.element.injEq] at heq
                  exact absurd heq.1 h5

end CleanHtml
